import Mathlib

/-!
Verification development for the `comfyui-uno` node pack (`nodes.py`).

The file embeds the arithmetic and data-structure content of the Python
source as executable Lean definitions and proves the specified properties
about them.  Tensors, images and the host runtime are abstracted only where
the claims do not depend on them; every piece of control flow and every
formula is carried over from the source.
-/

namespace UnoNodes

/-! ## `preprocess_ref` (nodes.py lines 160-188)

The function receives a PIL image of size `(image_w, image_h)` and a
`long_size`.  Only the geometry matters for the claims, so the embedding
computes the sizes and the crop box.  The Python `int()` on the nonnegative
float `(long_size / image_w) * image_h` is modelled as the floor of the
exact rational value. -/

/-- Resize step of `preprocess_ref`: the new `(width, height)` of the image.
Source:
`if image_w >= image_h: new_w = long_size; new_h = int((long_size / image_w) * image_h)`
`else: new_h = long_size; new_w = int((long_size / image_h) * image_w)`. -/
def resizeDims (image_w image_h long_size : ℕ) : ℕ × ℕ :=
  if image_h ≤ image_w then
    (long_size, (⌊((long_size : ℚ) / image_w) * image_h⌋).toNat)
  else
    ((⌊((long_size : ℚ) / image_h) * image_w⌋).toNat, long_size)

/-- Crop step of `preprocess_ref`, applied to the resized size `(new_w, new_h)`.
Source:
`target_w = new_w // 16 * 16; target_h = new_h // 16 * 16;`
`left = (new_w - target_w) // 2; top = (new_h - target_h) // 2;`
`right = left + target_w; bottom = top + target_h`. -/
structure CropBox where
  target_w : ℕ
  target_h : ℕ
  left : ℕ
  top : ℕ
  right : ℕ
  bottom : ℕ
deriving Repr, DecidableEq

def cropBox (new_w new_h : ℕ) : CropBox :=
  let target_w := new_w / 16 * 16
  let target_h := new_h / 16 * 16
  let left := (new_w - target_w) / 2
  let top := (new_h - target_h) / 2
  { target_w := target_w, target_h := target_h
    left := left, top := top
    right := left + target_w, bottom := top + target_h }

/-- Output size of `preprocess_ref` for an input of size `(image_w, image_h)`:
resize, then crop to the computed box. -/
def preprocess_ref_size (image_w image_h long_size : ℕ) : ℕ × ℕ :=
  let (new_w, new_h) := resizeDims image_w image_h long_size
  ((cropBox new_w new_h).target_w, (cropBox new_w new_h).target_h)

/-- The rational floor in `resizeDims` agrees with natural division. -/
theorem floor_scale_eq_div (L a b : ℕ) :
    (⌊((L : ℚ) / a) * b⌋).toNat = L * b / a := by
  rcases Nat.eq_zero_or_pos a with rfl | ha
  · simp
  · have h1 : ((L : ℚ) / a) * b = ((L * b : ℕ) : ℚ) / ((a : ℕ) : ℚ) := by
      push_cast
      ring
    rw [h1, Int.floor_toNat, Nat.floor_div_nat, Nat.floor_natCast]

theorem resizeDims_eq_div (image_w image_h long_size : ℕ) :
    resizeDims image_w image_h long_size =
      if image_h ≤ image_w then
        (long_size, long_size * image_h / image_w)
      else
        (long_size * image_w / image_h, long_size) := by
  unfold resizeDims
  rw [floor_scale_eq_div, floor_scale_eq_div]

/-- C1: for every input of width `w > 0` and height `h > 0` and every
`long_size`, the resize step of `preprocess_ref` sets the longer side to
exactly `long_size` and the shorter side to the floor of the exactly
proportional value: if `w ≥ h` the new size is
`(long_size, int((long_size / w) * h))`, otherwise
`(int((long_size / h) * w), long_size)`. -/
theorem resize_aspect_preserving (image_w image_h long_size : ℕ)
    (hw : 0 < image_w) (hh : 0 < image_h) :
    resizeDims image_w image_h long_size =
      (if image_h ≤ image_w then (long_size, long_size * image_h / image_w)
       else (long_size * image_w / image_h, long_size)) ∧
    max (resizeDims image_w image_h long_size).1
        (resizeDims image_w image_h long_size).2 = long_size := by
  refine ⟨resizeDims_eq_div _ _ _, ?_⟩
  rw [resizeDims_eq_div]
  by_cases hcase : image_h ≤ image_w
  · simp only [if_pos hcase]
    have h2 : long_size * image_h ≤ image_w * long_size := by
      rw [Nat.mul_comm image_w long_size]
      exact Nat.mul_le_mul_left _ hcase
    exact max_eq_left (Nat.div_le_of_le_mul h2)
  · simp only [if_neg hcase]
    have h2 : long_size * image_w ≤ image_h * long_size := by
      rw [Nat.mul_comm image_h long_size]
      exact Nat.mul_le_mul_left _ (le_of_not_le hcase)
    exact max_eq_right (Nat.div_le_of_le_mul h2)

theorem resize_aspect_preserving_holds :
    resizeDims 3 2 512 =
      (if 2 ≤ 3 then (512, 512 * 2 / 3) else (512 * 3 / 2, 512)) ∧
    max (resizeDims 3 2 512).1 (resizeDims 3 2 512).2 = 512 :=
  resize_aspect_preserving 3 2 512 (by decide) (by decide)

/-- C2: `preprocess_ref` crops the resized image `(new_w, new_h)` to the
box computed by `cropBox`: the target sizes `new_w // 16 * 16` and
`new_h // 16 * 16` are the largest multiples of 16 not exceeding the
resized sizes (divisible by 16, not larger, and within 16 of the resized
size), the box starts at `left = (new_w - target_w) // 2` and
`top = (new_h - target_h) // 2`, has exactly the target sizes, and the
discarded margins on opposite sides differ by at most one pixel. -/
theorem crop_tile_aligned (new_w new_h : ℕ) :
    (cropBox new_w new_h).target_w = new_w / 16 * 16 ∧
    (cropBox new_w new_h).target_h = new_h / 16 * 16 ∧
    (16 ∣ (cropBox new_w new_h).target_w ∧ (cropBox new_w new_h).target_w ≤ new_w ∧
      new_w - (cropBox new_w new_h).target_w < 16) ∧
    (16 ∣ (cropBox new_w new_h).target_h ∧ (cropBox new_w new_h).target_h ≤ new_h ∧
      new_h - (cropBox new_w new_h).target_h < 16) ∧
    (cropBox new_w new_h).left = (new_w - (cropBox new_w new_h).target_w) / 2 ∧
    (cropBox new_w new_h).top = (new_h - (cropBox new_w new_h).target_h) / 2 ∧
    (cropBox new_w new_h).right - (cropBox new_w new_h).left = (cropBox new_w new_h).target_w ∧
    (cropBox new_w new_h).bottom - (cropBox new_w new_h).top = (cropBox new_w new_h).target_h ∧
    ((cropBox new_w new_h).left ≤ new_w - (cropBox new_w new_h).right ∧
      (new_w - (cropBox new_w new_h).right) - (cropBox new_w new_h).left ≤ 1) ∧
    ((cropBox new_w new_h).top ≤ new_h - (cropBox new_w new_h).bottom ∧
      (new_h - (cropBox new_w new_h).bottom) - (cropBox new_w new_h).top ≤ 1) := by
  simp only [cropBox, true_and]
  omega

/-! ## State dictionaries (`UnoFluxModelLoader.loadmodel`, nodes.py lines 55-99)

Python state dicts are insertion-ordered maps from string keys to tensors.
They are embedded as association lists with the usual dict operations:
`lookupKey` is `d[k]` / `k in d`, `setKey` is `d[k] = v` (replace in place
when the key exists, append otherwise), and `dictUpdate` is `d.update(other)`,
which assigns every entry of `other` into `d` in order. -/

def lookupKey {α : Type} (k : String) : List (String × α) → Option α
  | [] => none
  | p :: rest => if p.1 = k then some p.2 else lookupKey k rest

def hasKey {α : Type} (k : String) : List (String × α) → Bool
  | [] => false
  | p :: rest => p.1 = k || hasKey k rest

def setKey {α : Type} (d : List (String × α)) (k : String) (v : α) :
    List (String × α) :=
  if hasKey k d then d.map (fun p => if p.1 = k then (k, v) else p)
  else d ++ [(k, v)]

/-- Python dict update `base.update(lora)` (nodes.py line 87:
`sd.update(uno_sd)`). -/
def dictUpdate {α : Type} (base lora : List (String × α)) :
    List (String × α) :=
  lora.foldl (fun d p => setKey d p.1 p.2) base

theorem lookupKey_eq_none {α : Type} (k : String) (d : List (String × α)) :
    lookupKey k d = none ↔ k ∉ d.map Prod.fst := by
  induction d with
  | nil => simp [lookupKey]
  | cons p rest ih =>
    by_cases h : p.1 = k
    · simp [lookupKey, h]
    · simp [lookupKey, h, ih, Ne.symm h]

theorem hasKey_eq_isSome {α : Type} (k : String) (d : List (String × α)) :
    hasKey k d = (lookupKey k d).isSome := by
  induction d with
  | nil => simp [hasKey, lookupKey]
  | cons p rest ih =>
    by_cases h : p.1 = k
    · simp [hasKey, lookupKey, h]
    · simp [hasKey, lookupKey, h] at ih ⊢
      exact ih

theorem lookupKey_map_set_ne {α : Type} (k' k : String) (v : α)
    (d : List (String × α)) (hk : k' ≠ k) :
    lookupKey k (d.map (fun p => if p.1 = k' then (k', v) else p)) =
      lookupKey k d := by
  induction d with
  | nil => rfl
  | cons p rest ih =>
    by_cases hp : p.1 = k'
    · have hpk : ¬ p.1 = k := by rw [hp]; exact hk
      simp only [List.map_cons, lookupKey, if_pos hp, if_neg hk, if_neg hpk]
      exact ih
    · by_cases hpk : p.1 = k
      · simp only [List.map_cons, lookupKey, if_neg hp, if_pos hpk]
      · simp only [List.map_cons, lookupKey, if_neg hp, if_neg hpk]
        exact ih

theorem lookupKey_map_set_eq {α : Type} (k : String) (v : α)
    (d : List (String × α)) (h : hasKey k d = true) :
    lookupKey k (d.map (fun p => if p.1 = k then (k, v) else p)) = some v := by
  induction d with
  | nil => simp [hasKey] at h
  | cons p rest ih =>
    by_cases hp : p.1 = k
    · simp only [List.map_cons, lookupKey, if_pos hp]
      simp [lookupKey]
    · simp [hasKey, hp] at h
      simp only [List.map_cons, lookupKey, if_neg hp]
      exact ih h

theorem lookupKey_append_single {α : Type} (k' k : String) (v : α)
    (d : List (String × α)) (h : hasKey k' d = false) :
    lookupKey k (d ++ [(k', v)]) =
      if k' = k then some v else lookupKey k d := by
  induction d with
  | nil => simp [lookupKey]
  | cons p rest ih =>
    simp only [hasKey, Bool.or_eq_false_iff, decide_eq_false_iff_not] at h
    obtain ⟨h1, h2⟩ := h
    by_cases hpk : p.1 = k
    · have hk : ¬ k' = k := by
        intro he
        exact h1 (by rw [hpk, he])
      simp [lookupKey, hpk, hk]
    · simp [lookupKey, hpk, ih h2]

theorem lookupKey_setKey {α : Type} (d : List (String × α)) (k' k : String)
    (v : α) :
    lookupKey k (setKey d k' v) = if k' = k then some v else lookupKey k d := by
  unfold setKey
  by_cases h : hasKey k' d = true
  · rw [if_pos h]
    by_cases hk : k' = k
    · subst hk
      rw [if_pos rfl]
      exact lookupKey_map_set_eq k' v d h
    · rw [if_neg hk]
      exact lookupKey_map_set_ne k' k v d hk
  · rw [if_neg h]
    exact lookupKey_append_single k' k v d (by simpa using h)

theorem lookupKey_dictUpdate {α : Type} (base lora : List (String × α))
    (hl : (lora.map Prod.fst).Nodup) (k : String) :
    lookupKey k (dictUpdate base lora) =
      match lookupKey k lora with
      | some v => some v
      | none => lookupKey k base := by
  induction lora generalizing base with
  | nil => simp [dictUpdate, lookupKey]
  | cons p rest ih =>
    simp only [List.map_cons, List.nodup_cons] at hl
    have step : dictUpdate base (p :: rest) = dictUpdate (setKey base p.1 p.2) rest := rfl
    rw [step, ih _ hl.2]
    by_cases hk : p.1 = k
    · have hnone : lookupKey k rest = none := by
        rw [lookupKey_eq_none]
        rw [← hk]
        exact hl.1
      simp [lookupKey, hk, hnone, lookupKey_setKey, hk]
    · simp only [lookupKey, if_neg hk]
      cases hr : lookupKey k rest with
      | some v => rfl
      | none => simp [lookupKey_setKey, hk]

/-- C3: the merged state dict (`sd.update(uno_sd)`, line 87) maps every key
present in the LoRA dict to the LoRA value, keeps the base value for every
key present only in the base dict, and its key set is the union of the two
key sets.  `hl` is the dict invariant: the LoRA dict has no duplicate keys. -/
theorem loadmodel_merge_union_override {α : Type}
    (base lora : List (String × α))
    (hl : (lora.map Prod.fst).Nodup) (k : String) :
    (lookupKey k (dictUpdate base lora) =
      match lookupKey k lora with
      | some v => some v
      | none => lookupKey k base) ∧
    hasKey k (dictUpdate base lora) = (hasKey k base || hasKey k lora) := by
  refine ⟨lookupKey_dictUpdate base lora hl k, ?_⟩
  rw [hasKey_eq_isSome, hasKey_eq_isSome, hasKey_eq_isSome,
    lookupKey_dictUpdate base lora hl k]
  cases hlo : lookupKey k lora with
  | some v => simp
  | none => simp

def kA : String := "model.a"

def kB : String := "model.b"

def kC : String := "model.c"

theorem loadmodel_merge_union_override_holds :
    (lookupKey kB (dictUpdate [(kA, 1), (kB, 2)] [(kB, 9), (kC, 3)]) =
      match lookupKey kB [(kB, 9), (kC, 3)] with
      | some v => some v
      | none => lookupKey kB [(kA, 1), (kB, 2)]) ∧
    hasKey kB (dictUpdate [(kA, 1), (kB, 2)] [(kB, 9), (kC, 3)]) =
      (hasKey kB [(kA, 1), (kB, 2)] || hasKey kB [(kB, 9), (kC, 3)]) :=
  loadmodel_merge_union_override [(kA, 1), (kB, 2)] [(kB, 9), (kC, 3)]
    (by decide) kB

/-! ## dtype/device reconciliation (nodes.py lines 79-84)

A tensor is embedded as its dtype, its device and its payload; `.to` with a
dtype and a device returns the tensor converted to them. -/

structure Tensor where
  dtype : String
  device : String
  data : List ℤ
deriving Repr, DecidableEq

def Tensor.to (t : Tensor) (dtype device : String) : Tensor :=
  { t with dtype := dtype, device := device }

/-- Lines 79-84: `if sd:` take the dtype and the device of the first value
of the base state dict and convert every LoRA tensor to them
(`uno_sd = {k: v.to(dtype=dtype, device=device) for k, v in uno_sd.items()}`);
with an empty base dict nothing is converted. -/
def reconcileLora (sd uno_sd : List (String × Tensor)) :
    List (String × Tensor) :=
  match sd with
  | [] => uno_sd
  | (_, t0) :: _ => uno_sd.map (fun p => (p.1, p.2.to t0.dtype t0.device))

/-- C4: when the base state dict is non-empty (written structurally as
`(k0, t0) :: rest`, whose first value is `t0`), every tensor of the
converted LoRA state dict has the dtype and the device of that first base
value. -/
theorem loadmodel_lora_dtype_device (k0 : String) (t0 : Tensor)
    (rest uno_sd : List (String × Tensor)) :
    ∀ p ∈ reconcileLora ((k0, t0) :: rest) uno_sd,
      p.2.dtype = t0.dtype ∧ p.2.device = t0.device := by
  intro p hp
  simp only [reconcileLora, List.mem_map] at hp
  obtain ⟨q, _, rfl⟩ := hp
  exact ⟨rfl, rfl⟩

def dtFloat32 : String := "torch.float32"

def dtBFloat16 : String := "torch.bfloat16"

def devCpu : String := "cpu"

def devCuda : String := "cuda:0"

theorem loadmodel_lora_dtype_device_holds :
    ((kC, (Tensor.mk dtFloat32 devCpu [2]).to dtBFloat16 devCuda) :
        String × Tensor).2.dtype = (Tensor.mk dtBFloat16 devCuda [1]).dtype ∧
    ((kC, (Tensor.mk dtFloat32 devCpu [2]).to dtBFloat16 devCuda) :
        String × Tensor).2.device = (Tensor.mk dtBFloat16 devCuda [1]).device :=
  loadmodel_lora_dtype_device kA (Tensor.mk dtBFloat16 devCuda [1]) []
    [(kC, Tensor.mk dtFloat32 devCpu [2])]
    (kC, (Tensor.mk dtFloat32 devCpu [2]).to dtBFloat16 devCuda) (by decide)

/-! ## `UnoConditioning.append` (nodes.py lines 122-157)

A ComfyUI conditioning is a list of entries, each a cond tensor paired with
an options dict.  The host helper `node_helpers.conditioning_set_values`
returns the conditioning where the options dict of every entry is updated with the
given assignments.  The per-image pipeline of `preprocess` (lines 132-148:
uint8 conversion, `preprocess_ref` with the chosen `long_size`, layout
changes, `vae.encode`) is kept abstract as a function from the `long_size`
and the image to the encoded latent; the claims depend only on which images
it is applied to and with which `long_size`. -/

structure CondEntry (T V : Type) where
  cond : T
  opts : List (String × V)
deriving Repr, DecidableEq

def conditioning_set_values {T V : Type}
    (conditioning : List (CondEntry T V)) (values : List (String × V)) :
    List (CondEntry T V) :=
  conditioning.map (fun e => { e with opts := dictUpdate e.opts values })

def refImgKey : String := "ref_img"

/-- Line 130: `long_size = 512 if len(ref_img) <= 1 else 320`, where
`ref_img` is the list of non-None reference inputs in slot order
(lines 123-124). -/
def appendLongSize {Img : Type} (r1 r2 r3 r4 : Option Img) : ℕ :=
  if ([r1, r2, r3, r4].filterMap id).length ≤ 1 then 512 else 320

/-- Node method `UnoConditioning.append` (lines 122-157): collect the non-None
reference inputs in slot order, encode each with the chosen `long_size`
(`ref_img = [preprocess(r[0]) for r in ref_img]`), and if any are present
attach the list under `"ref_img"` via `conditioning_set_values`; otherwise
return the conditioning unchanged. -/
def UnoConditioning_append {T Img Lat : Type}
    (conditioning : List (CondEntry T (List Lat)))
    (encodeRef : ℕ → Img → Lat)
    (ref_image_1 ref_image_2 ref_image_3 ref_image_4 : Option Img) :
    List (CondEntry T (List Lat)) :=
  let ref_img :=
    ([ref_image_1, ref_image_2, ref_image_3, ref_image_4].filterMap id).map
      (encodeRef (appendLongSize ref_image_1 ref_image_2 ref_image_3 ref_image_4))
  if 0 < ref_img.length then
    conditioning_set_values conditioning [(refImgKey, ref_img)]
  else conditioning

/-- C5: with at least one non-None reference image, every entry of the
returned conditioning carries under `"ref_img"` the list of encoded
latents of the supplied images in slot order with None slots skipped, and
that list has exactly one element per supplied image. -/
theorem append_ref_img_list {T Img Lat : Type}
    (conditioning : List (CondEntry T (List Lat)))
    (encodeRef : ℕ → Img → Lat)
    (r1 r2 r3 r4 : Option Img)
    (hne : 1 ≤ ([r1, r2, r3, r4].filterMap id).length) :
    ∀ e ∈ UnoConditioning_append conditioning encodeRef r1 r2 r3 r4,
      lookupKey refImgKey e.opts =
        some (([r1, r2, r3, r4].filterMap id).map
          (encodeRef (appendLongSize r1 r2 r3 r4))) ∧
      (([r1, r2, r3, r4].filterMap id).map
          (encodeRef (appendLongSize r1 r2 r3 r4))).length =
        ([r1, r2, r3, r4].filterMap id).length := by
  intro e he
  simp only [UnoConditioning_append] at he
  rw [if_pos (by rw [List.length_map]; omega)] at he
  simp only [conditioning_set_values, List.mem_map] at he
  obtain ⟨e0, _, rfl⟩ := he
  refine ⟨?_, List.length_map _ _⟩
  have hset : dictUpdate e0.opts [(refImgKey,
      ([r1, r2, r3, r4].filterMap id).map
        (encodeRef (appendLongSize r1 r2 r3 r4)))] =
      setKey e0.opts refImgKey
        (([r1, r2, r3, r4].filterMap id).map
          (encodeRef (appendLongSize r1 r2 r3 r4))) := rfl
  simp only [hset, lookupKey_setKey]
  simp

theorem append_ref_img_list_holds :
    lookupKey refImgKey
        (CondEntry.mk 0 [(refImgKey, [519])] : CondEntry ℕ (List ℕ)).opts =
      some (([some 7, none, none, none].filterMap id).map
        ((fun ls i => ls + i) (appendLongSize (some 7) none none none))) ∧
    (([some 7, none, none, none].filterMap id).map
        ((fun ls i => ls + i) (appendLongSize (some 7) none none none))).length =
      ([some 7, none, none, none].filterMap id).length :=
  append_ref_img_list [CondEntry.mk 0 []] (fun ls i => ls + i)
    (some 7) none none none (by decide)
    (CondEntry.mk 0 [(refImgKey, [519])]) (by decide)

/-- C9: the `long_size` handed to the reference preprocessing is 512 when
at most one reference image is supplied and 320 when two or more are. -/
theorem append_long_size_choice {Img : Type} (r1 r2 r3 r4 : Option Img) :
    (([r1, r2, r3, r4].filterMap id).length ≤ 1 →
      appendLongSize r1 r2 r3 r4 = 512) ∧
    (2 ≤ ([r1, r2, r3, r4].filterMap id).length →
      appendLongSize r1 r2 r3 r4 = 320) := by
  unfold appendLongSize
  constructor
  · intro h
    rw [if_pos h]
  · intro h
    rw [if_neg (by omega)]

theorem append_long_size_choice_holds :
    appendLongSize (some 1) (none : Option ℕ) none none = 512 ∧
    appendLongSize (some 1) (some 2 : Option ℕ) none none = 320 :=
  ⟨(append_long_size_choice (some 1) none none none).1 (by decide),
   (append_long_size_choice (some 1) (some 2) none none).2 (by decide)⟩

/-- C10: with all four reference inputs None the node returns the input
conditioning unchanged — no `"ref_img"` key is attached, and the equation
holds for every encoder function, so the VAE encoder is never consulted. -/
theorem append_all_none {T Img Lat : Type}
    (conditioning : List (CondEntry T (List Lat)))
    (encodeRef : ℕ → Img → Lat) :
    UnoConditioning_append conditioning encodeRef none none none none =
      conditioning := rfl

/-! ## `UnoComfyAdapter.extra_conds` (nodes.py lines 29-35)

The superclass result `out = super().extra_conds(**kwargs)` is host code and
is abstracted as an arbitrary map from names to cond objects; a cond object
is either a `comfy.conds.CONDConstant` wrapper around a value or any other
host object. -/

inductive CondObj (V O : Type) where
  | constant : V → CondObj V O
  | other : O → CondObj V O
deriving Repr, DecidableEq

/-- Lines 29-35: take the superclass map, and when `kwargs` holds a
non-None `"ref_img"`, store it under `"ref_img"` wrapped as
`comfy.conds.CONDConstant`. -/
def extra_conds {V O : Type} (out : List (String × CondObj V O))
    (ref_img : Option V) : List (String × CondObj V O) :=
  match ref_img with
  | none => out
  | some r => setKey out refImgKey (CondObj.constant r)

/-- C6: without a non-None `"ref_img"` in kwargs the superclass map is
returned unchanged; with one, the returned map binds `"ref_img"` to the
value wrapped as a constant cond and agrees with the superclass map on
every other key. -/
theorem extra_conds_frame {V O : Type} (out : List (String × CondObj V O))
    (r : V) (k : String) :
    extra_conds out none = out ∧
    lookupKey refImgKey (extra_conds out (some r)) =
      some (CondObj.constant r) ∧
    (k ≠ refImgKey →
      lookupKey k (extra_conds out (some r)) = lookupKey k out) := by
  refine ⟨rfl, ?_, ?_⟩
  · simp [extra_conds, lookupKey_setKey]
  · intro hk
    simp only [extra_conds, lookupKey_setKey, if_neg (Ne.symm hk)]

theorem extra_conds_frame_holds :
    extra_conds [(kA, (CondObj.other 0 : CondObj ℕ ℕ))] none =
      [(kA, (CondObj.other 0 : CondObj ℕ ℕ))] ∧
    lookupKey refImgKey
        (extra_conds [(kA, (CondObj.other 0 : CondObj ℕ ℕ))] (some 5)) =
      some (CondObj.constant 5) ∧
    lookupKey kA
        (extra_conds [(kA, (CondObj.other 0 : CondObj ℕ ℕ))] (some 5)) =
      lookupKey kA [(kA, (CondObj.other 0 : CondObj ℕ ℕ))] :=
  ⟨(extra_conds_frame [(kA, CondObj.other 0)] 5 kA).1,
   (extra_conds_frame [(kA, CondObj.other 0)] 5 kA).2.1,
   (extra_conds_frame [(kA, CondObj.other 0)] 5 kA).2.2 (by decide)⟩

/-! ## `UnoVAE.encode` / `UnoVAE.decode` normalization (nodes.py lines 225-243)

A 4-d tensor is embedded as a function of its four indices with rational
values standing for the real-valued floats; a rearrange only permutes the
index order. -/

def Tensor4 : Type := ℕ → ℕ → ℕ → ℕ → ℚ

/-- Layout change `rearrange(x, "b h w c -> b c h w")` (line 228). -/
def rearrange_bhwc_bchw (x : Tensor4) : Tensor4 :=
  fun b c h w => x b h w c

/-- Layout change `rearrange(x, "b c h w -> b h w c")` (line 239). -/
def rearrange_bchw_bhwc (x : Tensor4) : Tensor4 :=
  fun b h w c => x b c h w

/-- Input normalization of `UnoVAE.encode` (lines 228-229): layout to
`b c h w`, then `x = x * 2.0 - 1.0`. -/
def encodeNormalize (x : Tensor4) : Tensor4 :=
  fun b c h w => rearrange_bhwc_bchw x b c h w * 2 - 1

/-- Output normalization of `UnoVAE.decode` (lines 239-242): layout to
`b h w c`, then `x = (x + 1.0) / 2.0`. -/
def decodeNormalize (x : Tensor4) : Tensor4 :=
  fun b h w c => (rearrange_bchw_bhwc x b h w c + 1) / 2

/-- C7: `UnoVAE.encode` hands the underlying encoder the value
`2 * x[b, h, w, c] - 1` at position `(b, c, h, w)` — layout `b h w c` to
`b c h w` and affine map `x ↦ 2x - 1` — and inputs in `[0, 1]` land in
`[-1, 1]`. -/
theorem encode_normalization (x : Tensor4) (b c h w : ℕ) :
    encodeNormalize x b c h w = 2 * x b h w c - 1 ∧
    (0 ≤ x b h w c → x b h w c ≤ 1 →
      -1 ≤ encodeNormalize x b c h w ∧ encodeNormalize x b c h w ≤ 1) := by
  unfold encodeNormalize rearrange_bhwc_bchw
  constructor
  · ring
  · intro h0 h1
    constructor <;> linarith

theorem encode_normalization_holds :
    encodeNormalize (fun _ _ _ _ => (1 : ℚ) / 4) 0 0 0 0 =
      2 * ((1 : ℚ) / 4) - 1 ∧
    -1 ≤ encodeNormalize (fun _ _ _ _ => (1 : ℚ) / 4) 0 0 0 0 ∧
    encodeNormalize (fun _ _ _ _ => (1 : ℚ) / 4) 0 0 0 0 ≤ 1 := by
  have h := encode_normalization (fun _ _ _ _ => (1 : ℚ) / 4) 0 0 0 0
  exact ⟨h.1, h.2 (by norm_num) (by norm_num)⟩

/-- C8: the decode-side normalization is the exact inverse of the
encode-side normalization: composing them is the identity on tensors. -/
theorem decode_inverts_encode (x : Tensor4) :
    decodeNormalize (encodeNormalize x) = x := by
  funext b h w c
  unfold decodeNormalize encodeNormalize rearrange_bchw_bhwc rearrange_bhwc_bchw
  ring

end UnoNodes
